import Mathlib

/-
Verification of the vsss-rust secret-sharing library: a shallow embedding of
`src/utils/mod.rs`, `src/shamirs_secret_sharing/mod.rs` and
`src/feldman_verifiability/mod.rs` into Lean, together with proofs and
refutations of the specified properties.

Modelling conventions:
* `BigUint` is embedded as `Nat`, `BigInt` as `Int`.  Rust's `%` and `/` on
  `BigInt` truncate towards zero, so they are embedded as `Int.tmod` and
  `Int.tdiv`.
* `BigUint` subtraction panics on underflow and `%` panics on a zero modulus.
  Where such a panic is reachable in `lagrange_interpolation_zero`, the
  embedding returns `none` in an outer `Option` layer: the overall result type
  is `Option (Option Nat)` with `none` = panic, `some none` = the function's
  `None`, `some (some s)` = the function's `Some(s)`.
* The thread-local random generator is embedded as an explicit draw sequence
  `rand : Nat → Nat`, where `rand k` is the k-th value drawn; the generator's
  documented contract (`gen_biguint_range(1, n)` returns a value in `[1, n)`)
  becomes a hypothesis where a claim needs it.
-/

namespace VSSS

/-- The `Polynomial` struct of `src/utils/mod.rs` (coefficients in `BigUint`). -/
structure Polynomial where
  coefficients : List Nat
deriving Repr, DecidableEq

/-- `Polynomial::evaluate` from `src/utils/mod.rs` lines 56-66: the loop keeps a
running `result` and `x_pow`, adding `coef * x_pow` for each coefficient.  No
modular reduction happens inside. -/
def Polynomial.evaluate (p : Polynomial) (x : Nat) : Nat :=
  (p.coefficients.foldl (fun acc coef => (acc.1 + coef * acc.2, acc.2 * x)) ((0 : Nat), (1 : Nat))).1

/-- `Polynomial::new` from `src/utils/mod.rs` lines 34-46: `degree + 1`
coefficients, each drawn by `rng.gen_biguint_range(1, 1 << max_bit_size)`.  The
k-th loop iteration receives the draw `rand k`; the range contract of the
generator is supplied as a hypothesis where needed.  `max_bit_size` only feeds
the generator's bound, hence it does not appear in the returned data. -/
def Polynomial.new (degree : Nat) (max_bit_size : Nat) (rand : Nat → Nat) : Polynomial :=
  ⟨(List.range (degree + 1)).map rand⟩

/-- Modelled from the spec: `Polynomial::new_for_shamir` is called at
`src/shamirs_secret_sharing/mod.rs` line 48 and
`src/feldman_verifiability/mod.rs` line 58 but its definition is not part of
the sources; spec section 4.2 describes it: given `degree`, a bit-size bound
`max_bits` and a `secret`, it produces `degree + 1` coefficients whose first
element is `secret` and whose remaining elements are random draws from
`[1, 2^max_bits)`.  As for `Polynomial.new`, the draws are the explicit
sequence `rand`. -/
def Polynomial.new_for_shamir (degree : Nat) (max_bit_size : Nat) (secret : Nat)
    (rand : Nat → Nat) : Polynomial :=
  ⟨secret :: (List.range degree).map rand⟩

/-- `mod_exp` from `src/utils/mod.rs` lines 142-144 (`base.modpow`). -/
def mod_exp (base exponent modulus : Nat) : Nat :=
  base ^ exponent % modulus

/-- Truncated remainder keeps the divisor's magnitude as a strict bound on the
remainder's magnitude; justifies termination of `egcd`. -/
theorem natAbs_tmod_lt_natAbs (b : Int) {a : Int} (ha : a ≠ 0) :
    (Int.tmod b a).natAbs < a.natAbs := by
  have h : (Int.tmod b a).natAbs = b.natAbs % a.natAbs := by
    cases b <;> cases a <;>
      simp [Int.tmod, Int.natAbs_neg] <;> rfl
  rw [h]
  exact Nat.mod_lt _ (Int.natAbs_pos.mpr ha)

/-- `egcd` from `src/utils/mod.rs` lines 156-163: recursive extended Euclid
over `BigInt`, with Rust's truncating `%` and `/`. -/
def egcd (a b : Int) : Int × Int × Int :=
  if h : a = 0 then (b, 0, 1)
  else
    let r := egcd (Int.tmod b a) a
    (r.1, r.2.2 - Int.tdiv b a * r.2.1, r.2.1)
termination_by a.natAbs
decreasing_by exact natAbs_tmod_lt_natAbs b h

/-- `mod_inv` from `src/utils/mod.rs` lines 175-184.  The normalisation
`((x % m) + m) % m` uses `BigInt` arithmetic, hence `Int.tmod`.  (For `m = 0`
the Rust code would panic on `x % 0` in the `g == 1` branch; no caller in a
settled claim reaches `mod_inv` with a zero modulus.) -/
def mod_inv (a m : Nat) : Option Nat :=
  if (egcd (a : Int) (m : Int)).1 = 1 then
    some ((Int.tmod (Int.tmod (egcd (a : Int) (m : Int)).2.1 (m : Int) + (m : Int))
      (m : Int)).toNat)
  else
    none

/-- The inner loop of `lagrange_interpolation_zero` (`src/utils/mod.rs` lines
208-218) over the enumerated point list, accumulating `numerator` and
`denominator`.  `none` models a `BigUint` panic: `modulus - x_j` underflows
when `x_j > modulus`, and `% modulus` divides by zero when `modulus = 0` (in
the non-underflowing case `x_j = 0`).  The second subtraction
`x_i + modulus - x_j` cannot underflow once `x_j ≤ modulus` holds. -/
def innerAux (m i x_i : Nat) : List (Nat × (Nat × Nat)) → Nat → Nat → Option (Nat × Nat)
  | [], num, den => some (num, den)
  | jp :: rest, num, den =>
    if jp.1 = i then innerAux m i x_i rest num den
    else if m < jp.2.1 then none
    else if m = 0 then none
    else innerAux m i x_i rest ((num * ((m - jp.2.1) % m)) % m)
      ((den * (x_i + m - jp.2.1) % m) % m)

/-- The outer loop of `lagrange_interpolation_zero` (`src/utils/mod.rs` lines
208-222): for each enumerated point, run the inner loop on the full point
list, invert the denominator (propagating `None` exactly as `?` does), and
accumulate the term.  The final `% modulus` operations panic when
`modulus = 0`. -/
def lagrangeAux (points : List (Nat × Nat)) (m : Nat) :
    List (Nat × (Nat × Nat)) → Nat → Option (Option Nat)
  | [], acc => some (some acc)
  | e :: rest, acc =>
    match innerAux m e.1 e.2.1 points.enum 1 1 with
    | none => none
    | some nd =>
      match mod_inv nd.2 m with
      | none => some none
      | some inv =>
        if m = 0 then none
        else lagrangeAux points m rest ((acc + e.2.2 * nd.1 * inv % m) % m)

/-- `lagrange_interpolation_zero` from `src/utils/mod.rs` lines 205-224. -/
def lagrange_interpolation_zero (points : List (Nat × Nat)) (modulus : Nat) :
    Option (Option Nat) :=
  lagrangeAux points modulus points.enum 0

namespace ShamirsSecretSharing

/-- `generate_shares` from `src/shamirs_secret_sharing/mod.rs` lines 42-58. -/
def generate_shares (secret threshold num_shares modulus : Nat) (rand : Nat → Nat) :
    List (Nat × Nat) :=
  let poly := Polynomial.new_for_shamir (threshold - 1) (Nat.size secret) secret rand
  (List.range num_shares).map (fun k => (k + 1, poly.evaluate (k + 1) % modulus))

/-- `reconstruct_secret` from `src/shamirs_secret_sharing/mod.rs` lines 71-73. -/
def reconstruct_secret (shares : List (Nat × Nat)) (modulus : Nat) : Option (Option Nat) :=
  lagrange_interpolation_zero shares modulus

end ShamirsSecretSharing

/-- The `FeldmanVSSParams` struct of `src/feldman_verifiability/mod.rs`. -/
structure FeldmanVSSParams where
  g : Nat
  q : Nat
deriving Repr, DecidableEq

/-- `FeldmanVSSParams::generate_commitments` from
`src/feldman_verifiability/mod.rs` lines 95-99: `g^coef mod q` for each
coefficient. -/
def FeldmanVSSParams.generate_commitments (params : FeldmanVSSParams) (poly : Polynomial) :
    List Nat :=
  poly.coefficients.map (fun coef => mod_exp params.g coef params.q)

/-- `FeldmanVSSParams::generate_shares` from `src/feldman_verifiability/mod.rs`
lines 57-72. -/
def FeldmanVSSParams.generate_shares (params : FeldmanVSSParams)
    (secret threshold num_shares : Nat) (rand : Nat → Nat) :
    List (Nat × Nat) × List Nat :=
  let poly := Polynomial.new_for_shamir (threshold - 1) (Nat.size secret) secret rand
  let shares := (List.range num_shares).map
    (fun k => (k + 1, poly.evaluate (k + 1) % params.q))
  (shares, params.generate_commitments poly)

namespace FeldmanVerifiability

/-- `verify_share` from `src/feldman_verifiability/mod.rs` lines 119-135:
`g^share mod q` against the enumerated product of
`commitment_j ^ (i^j mod q) mod q`. -/
def verify_share (i share : Nat) (commitments : List Nat) (params : FeldmanVSSParams) : Bool :=
  let lhs := mod_exp params.g share params.q
  let rhs := commitments.enum.foldl
    (fun acc jc => acc * mod_exp jc.2 (mod_exp i jc.1 params.q) params.q % params.q) 1
  lhs == rhs

/-- `reconstruct_secret` from `src/feldman_verifiability/mod.rs` lines 152-154. -/
def reconstruct_secret (shares : List (Nat × Nat)) (modulus : Nat) : Option (Option Nat) :=
  lagrange_interpolation_zero shares modulus

end FeldmanVerifiability

/-- Models the `usize` subtraction `threshold - 1` performed at
`src/shamirs_secret_sharing/mod.rs` line 48 and
`src/feldman_verifiability/mod.rs` line 58: a `usize` subtraction underflows
(panics in debug builds) when the subtrahend exceeds the minuend, so the
polynomial degree is only defined for `threshold ≥ 1`. -/
def thresholdDegree (threshold : Nat) : Option Nat :=
  if 1 ≤ threshold then some (threshold - 1) else none

/-- The numerator product the interpolation loop accumulates for point `i`
(spec section 4.3: `numerator_i = prod over j of -x_j`, computed in the code as
factors `(modulus - x_j) % modulus`; the product below leaves the factors
unreduced, which is congruent). -/
def lagNumProd (points : List (Nat × Nat)) (m i : Nat) : Nat :=
  ∏ j ∈ (Finset.range points.length).erase i, (m - (points.getD j (0, 0)).1)

/-- The denominator product the interpolation loop accumulates for point `i`
(spec section 4.3: `denominator_i = prod over j of (x_i - x_j)`, computed in
the code as factors `(x_i + modulus - x_j) % modulus`). -/
def lagDenProd (points : List (Nat × Nat)) (m i : Nat) : Nat :=
  ∏ j ∈ (Finset.range points.length).erase i,
    ((points.getD i (0, 0)).1 + m - (points.getD j (0, 0)).1)

/-- The reduced numerator value actually held by the loop variable after the
inner loop for point `i`. -/
def lagNumVal (points : List (Nat × Nat)) (m i : Nat) : Nat :=
  lagNumProd points m i % m

/-- The reduced denominator value actually passed to `mod_inv` for point `i`. -/
def lagDenVal (points : List (Nat × Nat)) (m i : Nat) : Nat :=
  lagDenProd points m i % m

/-- The inverse returned by `mod_inv` for point `i`'s denominator (0 when no
inverse exists; only used under an invertibility hypothesis). -/
def lagInvVal (points : List (Nat × Nat)) (m i : Nat) : Nat :=
  (mod_inv (lagDenVal points m i) m).getD 0

end VSSS

section HelperLemmas

open VSSS

/-- Closed form of the evaluation loop with arbitrary accumulator state. -/
theorem evaluate_foldl (cs : List Nat) (x r xp : Nat) :
    (cs.foldl (fun acc coef => (acc.1 + coef * acc.2, acc.2 * x)) (r, xp)).1
      = r + ∑ k ∈ Finset.range cs.length, cs.getD k 0 * (xp * x ^ k) := by
  induction cs generalizing r xp with
  | nil => simp
  | cons c cs ih =>
    simp only [List.foldl_cons, List.length_cons]
    rw [ih, Finset.sum_range_succ']
    simp only [List.getD_cons_succ, List.getD_cons_zero, pow_succ, pow_zero]
    have hs : (∑ k ∈ Finset.range cs.length, cs.getD k 0 * (xp * (x ^ k * x)))
        = ∑ k ∈ Finset.range cs.length, cs.getD k 0 * (xp * x * x ^ k) :=
      Finset.sum_congr rfl fun k _ => by ring
    rw [hs]
    ring

/-- `Polynomial.evaluate` computes the unreduced sum of `c_k * x^k`. -/
theorem evaluate_eq_sum (p : VSSS.Polynomial) (x : Nat) :
    p.evaluate x = ∑ k ∈ Finset.range p.coefficients.length, p.coefficients.getD k 0 * x ^ k := by
  unfold VSSS.Polynomial.evaluate
  rw [evaluate_foldl]
  simp

/-- Products over an enumerated list correspond to indexed products. -/
theorem enumFrom_map_prod {α : Type*} {M : Type*} [CommMonoid M] (d : α) (g : Nat → α → M) :
    ∀ (ps : List α) (k : Nat),
      ((List.enumFrom k ps).map (fun jp => g jp.1 jp.2)).prod
        = ∏ j ∈ Finset.range ps.length, g (k + j) (ps.getD j d) := by
  intro ps
  induction ps with
  | nil => simp
  | cons p ps ih =>
    intro k
    simp only [List.enumFrom_cons, List.map_cons, List.prod_cons, List.length_cons]
    rw [ih (k + 1), Finset.prod_range_succ']
    simp only [List.getD_cons_succ, List.getD_cons_zero, Nat.add_zero]
    rw [mul_comm]
    congr 1
    refine Finset.prod_congr rfl fun j _ => ?_
    congr 1
    omega

/-- Sums over an enumerated list correspond to indexed sums. -/
theorem enumFrom_map_sum {α : Type*} {M : Type*} [AddCommMonoid M] (d : α) (g : Nat → α → M) :
    ∀ (ps : List α) (k : Nat),
      ((List.enumFrom k ps).map (fun jp => g jp.1 jp.2)).sum
        = ∑ j ∈ Finset.range ps.length, g (k + j) (ps.getD j d) := by
  intro ps
  induction ps with
  | nil => simp
  | cons p ps ih =>
    intro k
    simp only [List.enumFrom_cons, List.map_cons, List.sum_cons, List.length_cons]
    rw [ih (k + 1), Finset.sum_range_succ']
    simp only [List.getD_cons_succ, List.getD_cons_zero, Nat.add_zero]
    rw [add_comm]
    congr 1
    refine Finset.sum_congr rfl fun j _ => ?_
    congr 1
    omega

/-- A product with the `i`-th factor replaced by `1` is the product over the
index set with `i` erased. -/
theorem prod_ite_eq_prod_erase (n i : Nat) (f : Nat → Nat) :
    (∏ j ∈ Finset.range n, if j = i then 1 else f j)
      = ∏ j ∈ (Finset.range n).erase i, f j := by
  have h : (∏ j ∈ (Finset.range n).erase i, if j = i then 1 else f j)
      = ∏ j ∈ Finset.range n, if j = i then 1 else f j :=
    Finset.prod_erase (Finset.range n) (if_pos rfl)
  rw [← h]
  exact Finset.prod_congr rfl fun j hj => if_neg (Finset.ne_of_mem_erase hj)

/-- Truncated remainder in terms of `Nat` remainder of the absolute values. -/
theorem natAbs_tmod (a b : Int) : (Int.tmod a b).natAbs = a.natAbs % b.natAbs := by
  cases a <;> cases b <;> simp [Int.tmod, Int.natAbs_neg] <;> rfl

/-- Unfolding equation of `egcd` at zero. -/
theorem egcd_zero (b : Int) : egcd 0 b = (b, 0, 1) := by
  rw [egcd]
  simp

/-- Unfolding equation of `egcd` away from zero. -/
theorem egcd_of_ne (a b : Int) (ha : a ≠ 0) :
    egcd a b = ((egcd (Int.tmod b a) a).1,
      (egcd (Int.tmod b a) a).2.2 - Int.tdiv b a * (egcd (Int.tmod b a) a).2.1,
      (egcd (Int.tmod b a) a).2.1) := by
  rw [egcd]
  simp [ha]

/-- `egcd` returns the gcd together with Bezout coefficients (on the
non-negative inputs `mod_inv` supplies). -/
theorem egcd_spec : ∀ (n : Nat) (a b : Int), a.natAbs ≤ n → 0 ≤ a → 0 ≤ b →
    (egcd a b).1 = Int.gcd a b ∧
      a * (egcd a b).2.1 + b * (egcd a b).2.2 = (egcd a b).1 := by
  intro n
  induction n with
  | zero =>
    intro a b hn ha hb
    have ha0 : a = 0 := Int.natAbs_eq_zero.mp (Nat.le_zero.mp hn)
    subst ha0
    rw [egcd_zero]
    constructor
    · simp [Int.gcd, Int.natAbs_of_nonneg hb]
    · ring
  | succ n ih =>
    intro a b hn ha hb
    by_cases ha0 : a = 0
    · subst ha0
      rw [egcd_zero]
      constructor
      · simp [Int.gcd, Int.natAbs_of_nonneg hb]
      · ring
    · rw [egcd_of_ne a b ha0]
      have hrec_nonneg : 0 ≤ Int.tmod b a := Int.tmod_nonneg a hb
      have hdec : (Int.tmod b a).natAbs ≤ n := by
        have := natAbs_tmod_lt_natAbs b ha0
        omega
      obtain ⟨hg, hbez⟩ := ih (Int.tmod b a) a hdec hrec_nonneg ha
      refine ⟨?_, ?_⟩
      · rw [hg]
        simp only [Int.gcd, natAbs_tmod]
        exact_mod_cast congrArg (Nat.cast : Nat → Int) (Nat.gcd_rec a.natAbs b.natAbs).symm
      · have hmod : Int.tmod b a = b - a * Int.tdiv b a := by
          have := Int.tdiv_add_tmod b a
          linarith
        calc a * ((egcd (Int.tmod b a) a).2.2 - Int.tdiv b a * (egcd (Int.tmod b a) a).2.1)
              + b * (egcd (Int.tmod b a) a).2.1
            = Int.tmod b a * (egcd (Int.tmod b a) a).2.1
              + a * (egcd (Int.tmod b a) a).2.2 := by rw [hmod]; ring
          _ = (egcd (Int.tmod b a) a).1 := hbez

/-- `mod_inv` fails exactly when the gcd is not 1. -/
theorem mod_inv_eq_none_iff (a m : Nat) : mod_inv a m = none ↔ Nat.gcd a m ≠ 1 := by
  obtain ⟨hg, -⟩ := egcd_spec (a : Int).natAbs (a : Int) (m : Int) le_rfl
    (Int.natCast_nonneg a) (Int.natCast_nonneg m)
  rw [Int.gcd_natCast_natCast] at hg
  unfold mod_inv
  rw [hg]
  constructor
  · intro h hgcd
    rw [hgcd] at h
    simp at h
  · intro hgcd
    have hne : ((Nat.gcd a m : Int)) ≠ 1 := by
      intro hc
      exact hgcd (by exact_mod_cast hc)
    simp [hne]

/-- When the gcd is 1 and the modulus is positive, `mod_inv` returns a value
below the modulus that is a genuine modular inverse. -/
theorem mod_inv_eq_some (a m : Nat) (hm : 1 ≤ m) (h : Nat.gcd a m = 1) :
    ∃ v, mod_inv a m = some v ∧ v < m ∧ (a * v) % m = 1 % m := by
  obtain ⟨hg, hbez⟩ := egcd_spec (a : Int).natAbs (a : Int) (m : Int) le_rfl
    (Int.natCast_nonneg a) (Int.natCast_nonneg m)
  rw [Int.gcd_natCast_natCast, h] at hg
  set x := (egcd (a : Int) (m : Int)).2.1 with hx
  set y := (egcd (a : Int) (m : Int)).2.2 with hy
  have hmpos : (0 : Int) < (m : Int) := by exact_mod_cast hm
  have habs : (Int.tmod x (m : Int)).natAbs < m := by
    rw [natAbs_tmod]
    simpa using Nat.mod_lt x.natAbs (by omega : 0 < m)
  have hlow : -(m : Int) < Int.tmod x (m : Int) := by
    omega
  have hnn : 0 ≤ Int.tmod x (m : Int) + (m : Int) := by omega
  have houter : Int.tmod (Int.tmod x (m : Int) + (m : Int)) (m : Int)
      = (Int.tmod x (m : Int) + (m : Int)) % (m : Int) :=
    Int.tmod_eq_emod hnn (le_of_lt hmpos)
  have hbound : 0 ≤ (Int.tmod x (m : Int) + (m : Int)) % (m : Int) ∧
      (Int.tmod x (m : Int) + (m : Int)) % (m : Int) < (m : Int) :=
    ⟨Int.emod_nonneg _ (by omega), Int.emod_lt_of_pos _ hmpos⟩
  refine ⟨(Int.tmod (Int.tmod x (m : Int) + (m : Int)) (m : Int)).toNat, ?_, ?_, ?_⟩
  · unfold mod_inv
    rw [hg]
    simp
  · rw [houter]
    omega
  · -- the produced value is congruent to the Bezout coefficient x
    have hcong : (Int.tmod (Int.tmod x (m : Int) + (m : Int)) (m : Int)) % (m : Int)
        = x % (m : Int) := by
      rw [houter]
      have hx1 : Int.tmod x (m : Int) = x - (m : Int) * Int.tdiv x (m : Int) := by
        have := Int.tdiv_add_tmod x (m : Int)
        linarith
      rw [Int.emod_emod_of_dvd _ dvd_rfl, hx1]
      have : x - (m : Int) * Int.tdiv x (m : Int) + (m : Int)
          = x + (m : Int) * (1 - Int.tdiv x (m : Int)) := by ring
      rw [this, Int.add_mul_emod_self_left]
    have hxinv : ((a : Int) * x) % (m : Int) = 1 % (m : Int) := by
      have hbez1 : (a : Int) * x + (m : Int) * y = 1 := by
        rw [hg] at hbez
        exact_mod_cast hbez
      have hsplit : (a : Int) * x = 1 - (m : Int) * y := by linarith
      rw [hsplit]
      have h2 : (1 : Int) - (m : Int) * y = 1 + (m : Int) * (-y) := by ring
      rw [h2, Int.add_mul_emod_self_left]
    have htn : ((Int.tmod (Int.tmod x (m : Int) + (m : Int)) (m : Int)).toNat : Int)
        = Int.tmod (Int.tmod x (m : Int) + (m : Int)) (m : Int) := by
      rw [houter]
      exact Int.toNat_of_nonneg hbound.1
    have : ((a * (Int.tmod (Int.tmod x (m : Int) + (m : Int)) (m : Int)).toNat) % m : Int)
        = ((1 % m : Nat) : Int) := by
      push_cast
      rw [htn]
      conv_lhs => rw [Int.mul_emod, hcong, ← Int.mul_emod]
      rw [hxinv]
    exact_mod_cast this

/-- The inner interpolation loop computes the reduced products of the
numerator and denominator factors exactly (no panic under the stated bounds). -/
theorem innerAux_eq (m i x_i : Nat) (hm : 2 ≤ m) :
    ∀ (lst : List (Nat × (Nat × Nat))) (num den : Nat),
      (∀ jp ∈ lst, jp.2.1 ≤ m) → num < m → den < m →
      innerAux m i x_i lst num den =
        some ((num * (lst.map (fun jp => if jp.1 = i then 1 else m - jp.2.1)).prod) % m,
              (den * (lst.map (fun jp => if jp.1 = i then 1 else x_i + m - jp.2.1)).prod) % m) := by
  intro lst
  induction lst with
  | nil =>
    intro num den hx hnum hden
    simp [innerAux, Nat.mod_eq_of_lt hnum, Nat.mod_eq_of_lt hden]
  | cons jp lst ih =>
    intro num den hx hnum hden
    have hle : jp.2.1 ≤ m := hx jp (by simp)
    by_cases hji : jp.1 = i
    · rw [innerAux, if_pos hji,
        ih num den (fun q hq => hx q (List.mem_cons_of_mem jp hq)) hnum hden]
      simp [hji]
    · rw [innerAux, if_neg hji, if_neg (by omega : ¬ m < jp.2.1), if_neg (by omega : ¬ m = 0),
        ih _ _ (fun q hq => hx q (List.mem_cons_of_mem jp hq))
          (Nat.mod_lt _ (by omega)) (Nat.mod_lt _ (by omega))]
      simp only [List.map_cons, List.prod_cons, if_neg hji]
      congr 1
      refine Prod.ext ?_ ?_
      · show (_ % m) = (_ % m)
        calc ((num * ((m - jp.2.1) % m)) % m)
              * (lst.map (fun q => if q.1 = i then 1 else m - q.2.1)).prod
            ≡ (num * ((m - jp.2.1) % m))
              * (lst.map (fun q => if q.1 = i then 1 else m - q.2.1)).prod [MOD m] :=
              (Nat.mod_modEq _ m).mul_right _
          _ ≡ (num * (m - jp.2.1))
              * (lst.map (fun q => if q.1 = i then 1 else m - q.2.1)).prod [MOD m] :=
              (((Nat.mod_modEq _ m).mul_left num).mul_right _)
          _ = num * ((m - jp.2.1)
              * (lst.map (fun q => if q.1 = i then 1 else m - q.2.1)).prod) := by ring
      · show (_ % m) = (_ % m)
        calc (den * (x_i + m - jp.2.1) % m % m)
              * (lst.map (fun q => if q.1 = i then 1 else x_i + m - q.2.1)).prod
            ≡ (den * (x_i + m - jp.2.1))
              * (lst.map (fun q => if q.1 = i then 1 else x_i + m - q.2.1)).prod [MOD m] :=
              ((Nat.mod_modEq _ m).trans (Nat.mod_modEq _ m)).mul_right _
          _ = den * ((x_i + m - jp.2.1)
              * (lst.map (fun q => if q.1 = i then 1 else x_i + m - q.2.1)).prod) := by ring

/-- The inner loop over the full enumerated point list yields the loop's
numerator and denominator values for point `i`. -/
theorem innerAux_enum_eq (ps : List (Nat × Nat)) (m : Nat) (hm : 2 ≤ m)
    (hx : ∀ p ∈ ps, p.1 ≤ m) (i : Nat) :
    innerAux m i (ps.getD i (0, 0)).1 ps.enum 1 1
      = some (lagNumVal ps m i, lagDenVal ps m i) := by
  have hxe : ∀ jp ∈ ps.enum, jp.2.1 ≤ m := by
    intro jp hjp
    have h2 : jp.2 ∈ ps := by
      have := List.mem_enum_iff_get?.mp hjp
      exact List.get?_mem this
    exact hx jp.2 h2
  rw [innerAux_eq m i _ hm ps.enum 1 1 hxe (by omega) (by omega)]
  have henum : ps.enum = List.enumFrom 0 ps := rfl
  congr 2
  · rw [one_mul, henum,
      enumFrom_map_prod (0, 0) (fun j p => if j = i then 1 else m - p.1) ps 0]
    simp only [Nat.zero_add]
    rw [prod_ite_eq_prod_erase]
    rfl
  · rw [one_mul, henum,
      enumFrom_map_prod (0, 0)
        (fun j p => if j = i then 1 else (ps.getD i (0, 0)).1 + m - p.1) ps 0]
    simp only [Nat.zero_add]
    rw [prod_ite_eq_prod_erase]
    rfl

/-- If any denominator along the way is non-invertible, the outer loop
returns the function-level `None`. -/
theorem lagrangeAux_none (ps : List (Nat × Nat)) (m : Nat) (hm : 2 ≤ m)
    (hx : ∀ p ∈ ps, p.1 ≤ m) :
    ∀ (en : List (Nat × (Nat × Nat))), (∀ e ∈ en, e ∈ ps.enum) →
      (∃ e ∈ en, Nat.gcd (lagDenVal ps m e.1) m ≠ 1) →
      ∀ acc, lagrangeAux ps m en acc = some none := by
  intro en
  induction en with
  | nil =>
    intro _ h
    simp at h
  | cons e en ih =>
    intro hmem hex acc
    have he : e ∈ ps.enum := hmem e (by simp)
    have hx_i : e.2 = ps.getD e.1 (0, 0) := by
      have hq := List.mem_enum_iff_get?.mp he
      rw [List.getD_eq_get?, hq]
      rfl
    have hinner : innerAux m e.1 e.2.1 ps.enum 1 1
        = some (lagNumVal ps m e.1, lagDenVal ps m e.1) := by
      rw [show e.2.1 = (ps.getD e.1 (0, 0)).1 from by rw [hx_i]]
      exact innerAux_enum_eq ps m hm hx e.1
    by_cases hg : Nat.gcd (lagDenVal ps m e.1) m = 1
    · obtain ⟨v, hv, -, -⟩ := mod_inv_eq_some _ m (by omega) hg
      simp only [lagrangeAux, hinner, hv, if_neg (by omega : ¬ m = 0)]
      apply ih (fun q hq => hmem q (List.mem_cons_of_mem e hq))
      rcases hex with ⟨q, hq, hne⟩
      rcases List.mem_cons.mp hq with rfl | h'
      · exact absurd hg hne
      · exact ⟨q, h', hne⟩
    · simp only [lagrangeAux, hinner, (mod_inv_eq_none_iff _ m).mpr hg]

/-- If every denominator along the way is invertible, the outer loop returns a
reduced value whose residue is the accumulated Lagrange sum. -/
theorem lagrangeAux_some (ps : List (Nat × Nat)) (m : Nat) (hm : 2 ≤ m)
    (hx : ∀ p ∈ ps, p.1 ≤ m) :
    ∀ (en : List (Nat × (Nat × Nat))), (∀ e ∈ en, e ∈ ps.enum) →
      (∀ e ∈ en, Nat.gcd (lagDenVal ps m e.1) m = 1) →
      ∀ acc, acc < m →
      ∃ S, lagrangeAux ps m en acc = some (some S) ∧ S < m ∧
        (S : ZMod m) = (acc : ZMod m)
          + (en.map (fun e => ((e.2.2 : ZMod m) * ((lagNumVal ps m e.1 : Nat) : ZMod m)
              * ((lagInvVal ps m e.1 : Nat) : ZMod m)))).sum := by
  intro en
  induction en with
  | nil =>
    intro _ _ acc hacc
    exact ⟨acc, rfl, hacc, by simp⟩
  | cons e en ih =>
    intro hmem hgcd acc hacc
    have he : e ∈ ps.enum := hmem e (by simp)
    have hx_i : e.2 = ps.getD e.1 (0, 0) := by
      have hq := List.mem_enum_iff_get?.mp he
      rw [List.getD_eq_get?, hq]
      rfl
    have hg : Nat.gcd (lagDenVal ps m e.1) m = 1 := hgcd e (by simp)
    obtain ⟨v, hv, hvlt, hvinv⟩ := mod_inv_eq_some _ m (by omega) hg
    have hvval : lagInvVal ps m e.1 = v := by
      rw [lagInvVal, hv]
      rfl
    obtain ⟨S, hS, hSlt, hScast⟩ :=
      ih (fun q hq => hmem q (List.mem_cons_of_mem e hq))
        (fun q hq => hgcd q (List.mem_cons_of_mem e hq))
        ((acc + e.2.2 * lagNumVal ps m e.1 * v % m) % m)
        (Nat.mod_lt _ (by omega))
    have hinner : innerAux m e.1 e.2.1 ps.enum 1 1
        = some (lagNumVal ps m e.1, lagDenVal ps m e.1) := by
      rw [show e.2.1 = (ps.getD e.1 (0, 0)).1 from by rw [hx_i]]
      exact innerAux_enum_eq ps m hm hx e.1
    refine ⟨S, ?_, hSlt, ?_⟩
    · simp only [lagrangeAux, hinner, hv, if_neg (by omega : ¬ m = 0)]
      exact hS
    · rw [hScast]
      simp only [List.map_cons, List.sum_cons, ZMod.natCast_mod, Nat.cast_add, Nat.cast_mul,
        hvval]
      ring

/-- Evaluation of the coefficient-cast polynomial. -/
theorem eval_cast_poly {K : Type*} [CommRing K] (cs : List Nat) (z : K) :
    Polynomial.eval z (∑ i : Fin cs.length,
        Polynomial.C ((cs.getD (i : ℕ) 0 : Nat) : K) * Polynomial.X ^ (i : ℕ))
      = ∑ k ∈ Finset.range cs.length, ((cs.getD k 0 : Nat) : K) * z ^ k := by
  rw [Polynomial.eval_finset_sum, Finset.sum_range]
  simp

/-- The coefficient-cast polynomial takes its constant coefficient at zero. -/
theorem eval_cast_poly_zero {K : Type*} [CommRing K] (cs : List Nat) (h : 0 < cs.length) :
    Polynomial.eval 0 (∑ i : Fin cs.length,
        Polynomial.C ((cs.getD (i : ℕ) 0 : Nat) : K) * Polynomial.X ^ (i : ℕ))
      = ((cs.getD 0 0 : Nat) : K) := by
  rw [eval_cast_poly, Finset.sum_eq_single 0]
  · simp
  · intro b _ hb0
    simp [zero_pow hb0]
  · intro h0
    exact absurd (Finset.mem_range.mpr h) h0

/-- The Lagrange interpolation sum at zero recovers the value at zero of any
polynomial of small enough degree through the nodes. -/
theorem lagrange_sum_eq_eval_zero {F : Type*} [Field F] (t : Nat) (v : Nat → F) (r : Nat → F)
    (hinj : Set.InjOn v ↑(Finset.range t)) (f : Polynomial F)
    (hdeg : f.degree < t) (hr : ∀ j, j < t → r j = f.eval (v j)) :
    ∑ i ∈ Finset.range t, r i * (∏ j ∈ (Finset.range t).erase i, (0 - v j))
        * (∏ j ∈ (Finset.range t).erase i, (v i - v j))⁻¹
      = f.eval 0 := by
  classical
  have heq := Lagrange.eq_interpolate (s := Finset.range t) (v := v) hinj
    (f := f) (by rwa [Finset.card_range])
  conv_rhs => rw [heq]
  rw [Lagrange.interpolate_apply, Polynomial.eval_finset_sum]
  refine Finset.sum_congr rfl fun i hi => ?_
  rw [Polynomial.eval_mul, Polynomial.eval_C, hr i (Finset.mem_range.mp hi)]
  rw [mul_assoc]
  congr 1
  unfold Lagrange.basis
  rw [Polynomial.eval_prod, ← Finset.prod_inv_distrib, ← Finset.prod_mul_distrib]
  refine Finset.prod_congr rfl fun j _ => ?_
  rw [Lagrange.basisDivisor, Polynomial.eval_mul, Polynomial.eval_C, Polynomial.eval_sub,
    Polynomial.eval_X, Polynomial.eval_C]
  ring

/-- Concrete evaluation of `egcd 1 1` through its recursion equations. -/
theorem egcd_one_one : egcd 1 1 = (1, 1, 0) := by
  rw [egcd_of_ne 1 1 (by decide), show Int.tmod 1 1 = 0 from by decide, egcd_zero]
  decide

/-- Concrete evaluation: `mod_inv 1 1 = some 0`. -/
theorem mod_inv_one_one : mod_inv 1 1 = some 0 := by
  unfold mod_inv
  simp only [Nat.cast_one, egcd_one_one]
  decide

/-- Concrete evaluation: `mod_inv 0 1 = some 0`. -/
theorem mod_inv_zero_one : mod_inv 0 1 = some 0 := by
  unfold mod_inv
  simp only [Nat.cast_zero, Nat.cast_one, egcd_zero]
  decide

end HelperLemmas

section Claims

open VSSS

/-- C5: `Polynomial::evaluate` returns exactly the unreduced sum of
`c_k * x^k` over the coefficient sequence; no modular reduction happens
inside `evaluate`. -/
theorem C5_evaluate_unreduced (p : VSSS.Polynomial) (x : Nat) :
    p.evaluate x
      = ∑ k ∈ Finset.range p.coefficients.length, p.coefficients.getD k 0 * x ^ k :=
  evaluate_eq_sum p x

/-- C6: for the same underlying random draws, the Feldman engine's share list
coincides share for share with the Shamir engine's share list taken at
modulus `q`. -/
theorem C6_feldman_refines_shamir (params : FeldmanVSSParams)
    (secret threshold num_shares : Nat) (rand : Nat → Nat) :
    (params.generate_shares secret threshold num_shares rand).1
      = ShamirsSecretSharing.generate_shares secret threshold num_shares params.q rand :=
  rfl

/-- C7: the Shamir engine returns exactly `num_shares` shares, the k-th share
(1-based) being `(k, P(k) mod modulus)` for the constructed polynomial `P`;
hence indices are exactly `1..=num_shares`, in strictly ascending order, and
no index is 0. -/
theorem C7_shamir_share_indices (secret threshold num_shares modulus : Nat)
    (rand : Nat → Nat) (ht : 1 ≤ threshold) (hmod : 0 < modulus) :
    (ShamirsSecretSharing.generate_shares secret threshold num_shares modulus rand).length
        = num_shares ∧
    (∀ k, k < num_shares →
      (ShamirsSecretSharing.generate_shares secret threshold num_shares modulus rand).get? k
        = some (k + 1, (VSSS.Polynomial.new_for_shamir (threshold - 1) (Nat.size secret)
            secret rand).evaluate (k + 1) % modulus)) ∧
    (∀ p ∈ ShamirsSecretSharing.generate_shares secret threshold num_shares modulus rand,
      1 ≤ p.1 ∧ p.1 ≤ num_shares) ∧
    (ShamirsSecretSharing.generate_shares secret threshold num_shares modulus rand).Pairwise
      (fun p q => p.1 < q.1) := by
  refine ⟨by simp [ShamirsSecretSharing.generate_shares], ?_, ?_, ?_⟩
  · intro k hk
    simp [ShamirsSecretSharing.generate_shares, List.get?_map, List.get?_range hk, List.getElem?_range hk]
  · intro p hp
    simp only [ShamirsSecretSharing.generate_shares, List.mem_map, List.mem_range] at hp
    obtain ⟨a, ha, rfl⟩ := hp
    exact ⟨by omega, by omega⟩
  · simp only [ShamirsSecretSharing.generate_shares]
    rw [List.pairwise_map]
    exact (List.pairwise_lt_range num_shares).imp (by omega)

/-- Witness for C7 at a concrete instance. -/
theorem C7_witness :
    (ShamirsSecretSharing.generate_shares 1 1 2 5 (fun _ => 1)).length = 2 ∧
    (∀ p ∈ ShamirsSecretSharing.generate_shares 1 1 2 5 (fun _ => 1),
      1 ≤ p.1 ∧ p.1 ≤ 2) := by
  have h := C7_shamir_share_indices 1 1 2 5 (fun _ => 1) (by decide) (by decide)
  exact ⟨h.1, h.2.2.1⟩

/-- C8: the degree computation `threshold - 1` is an unsigned subtraction that
underflows exactly for `threshold = 0`; under `threshold ≥ 1` it is defined
and equals `threshold - 1`. -/
theorem C8_threshold_underflow :
    thresholdDegree 0 = none ∧ ∀ t : Nat, 1 ≤ t → thresholdDegree t = some (t - 1) := by
  refine ⟨rfl, fun t ht => ?_⟩
  simp [thresholdDegree, ht]

/-- Witness for C8 at a concrete instance. -/
theorem C8_witness : thresholdDegree 0 = none ∧ thresholdDegree 3 = some 2 :=
  ⟨C8_threshold_underflow.1, C8_threshold_underflow.2 3 (by decide)⟩

/-- C9: interpolation on the empty point list returns `Some 0` (not `None`),
and both reconstruct functions therefore succeed with value 0 on an empty
share slice, for every modulus. -/
theorem C9_empty_reconstruct (modulus : Nat) :
    lagrange_interpolation_zero [] modulus = some (some 0) ∧
    ShamirsSecretSharing.reconstruct_secret [] modulus = some (some 0) ∧
    FeldmanVerifiability.reconstruct_secret [] modulus = some (some 0) :=
  ⟨rfl, rfl, rfl⟩

/-- C10: `Polynomial::new` returns `degree + 1` coefficients, the k-th being
the k-th generator draw, which under the generator's contract lies in
`[1, 2^max_bit_size)` and is nonzero; the constant term is the first draw,
not any caller-supplied secret. -/
theorem C10_new_random_coefficients (degree max_bit_size : Nat) (rand : Nat → Nat)
    (hrand : ∀ k, 1 ≤ rand k ∧ rand k < 2 ^ max_bit_size) :
    (VSSS.Polynomial.new degree max_bit_size rand).coefficients.length = degree + 1 ∧
    (∀ k, k < degree + 1 →
      (VSSS.Polynomial.new degree max_bit_size rand).coefficients.get? k = some (rand k) ∧
      1 ≤ rand k ∧ rand k < 2 ^ max_bit_size ∧ rand k ≠ 0) ∧
    (VSSS.Polynomial.new degree max_bit_size rand).coefficients.get? 0 = some (rand 0) := by
  refine ⟨by simp [VSSS.Polynomial.new], fun k hk => ?_, ?_⟩
  · refine ⟨by simp [VSSS.Polynomial.new, List.get?_map, List.get?_range hk, List.getElem?_range hk],
      (hrand k).1, (hrand k).2, ?_⟩
    have := (hrand k).1
    omega
  · simp [VSSS.Polynomial.new, List.get?_map, List.get?_range (by omega : 0 < degree + 1), List.getElem?_range (by omega : 0 < degree + 1)]

/-- Witness for C10 at a concrete instance. -/
theorem C10_witness :
    (VSSS.Polynomial.new 1 1 (fun _ => 1)).coefficients.length = 2 ∧
    (VSSS.Polynomial.new 1 1 (fun _ => 1)).coefficients.get? 0 = some 1 := by
  have h := C10_new_random_coefficients 1 1 (fun _ => 1)
    (fun k => ⟨le_refl 1, by simp⟩)
  exact ⟨h.1, h.2.2⟩

/-- C4 as frozen is false: at `a = 1, m = 1` the gcd is 1, `mod_inv` returns
`some 0`, and `(1 * 0) % 1 = 0` is not 1. -/
theorem C4_counterexample :
    Nat.gcd 1 1 = 1 ∧ VSSS.mod_inv 1 1 = some 0 ∧ (1 * 0) % 1 ≠ 1 :=
  ⟨rfl, mod_inv_one_one, by decide⟩

/-- C4 (amended): for every `a` and every modulus `m ≥ 2`, if `gcd(a, m) = 1`
then `mod_inv a m` returns `some x` with `(a * x) mod m = 1`; if
`gcd(a, m) ≠ 1` it returns `none`.  (For `m = 1` the code returns `some 0`,
and `(a * 0) mod 1 = 0 ≠ 1`.) -/
theorem C4_mod_inv_amended (a m : Nat) (hm : 2 ≤ m) :
    (Nat.gcd a m = 1 → ∃ x, VSSS.mod_inv a m = some x ∧ a * x % m = 1) ∧
    (Nat.gcd a m ≠ 1 → VSSS.mod_inv a m = none) := by
  constructor
  · intro h
    obtain ⟨v, hv, -, hinv⟩ := mod_inv_eq_some a m (by omega) h
    exact ⟨v, hv, by rwa [Nat.mod_eq_of_lt (by omega : 1 < m)] at hinv⟩
  · exact fun h => (mod_inv_eq_none_iff a m).mpr h

/-- Witness for the amended C4 at `a = 3, m = 11` (the repository's own test
vector, where the inverse is 4). -/
theorem C4_witness :
    (Nat.gcd 3 11 = 1 → ∃ x, VSSS.mod_inv 3 11 = some x ∧ 3 * x % 11 = 1) ∧
    (Nat.gcd 3 11 ≠ 1 → VSSS.mod_inv 3 11 = none) :=
  C4_mod_inv_amended 3 11 (by decide)

/-- Closed form of the commitment-product fold in `verify_share`: when the
index powers stay below `q`, the fold computes `acc * g^(Σ c_j * i^(k+j))`
reduced mod `q`. -/
theorem verify_fold (q g i : Nat) (hq : 2 ≤ q) :
    ∀ (cs : List Nat) (k : Nat), (∀ j, j < cs.length → i ^ (k + j) < q) →
      ∀ acc, acc < q →
      (List.enumFrom k (cs.map fun c => mod_exp g c q)).foldl
          (fun a jc => a * mod_exp jc.2 (mod_exp i jc.1 q) q % q) acc
        = acc * g ^ ((List.enumFrom k cs).map fun jc => jc.2 * i ^ jc.1).sum % q := by
  intro cs
  induction cs with
  | nil =>
    intro k _ acc hacc
    simp [Nat.mod_eq_of_lt hacc]
  | cons c cs ih =>
    intro k h acc hacc
    simp only [List.map_cons, List.enumFrom_cons, List.foldl_cons, List.sum_cons]
    have hik : i ^ k % q = i ^ k := by
      refine Nat.mod_eq_of_lt ?_
      have := h 0 (by simp)
      simpa using this
    rw [ih (k + 1) (fun j hj => by
        have := h (j + 1) (by simpa using Nat.succ_lt_succ hj)
        have he : k + (j + 1) = k + 1 + j := by omega
        rwa [he] at this)
      _ (Nat.mod_lt _ (by omega))]
    simp only [mod_exp, hik]
    rw [← Nat.pow_mod, ← pow_mul]
    show (acc * (g ^ (c * i ^ k) % q) % q)
        * g ^ ((List.enumFrom (k + 1) cs).map fun jc => jc.2 * i ^ jc.1).sum % q
      = acc * g ^ (c * i ^ k
          + ((List.enumFrom (k + 1) cs).map fun jc => jc.2 * i ^ jc.1).sum) % q
    calc (acc * (g ^ (c * i ^ k) % q) % q)
          * g ^ ((List.enumFrom (k + 1) cs).map fun jc => jc.2 * i ^ jc.1).sum
        ≡ (acc * (g ^ (c * i ^ k) % q))
          * g ^ ((List.enumFrom (k + 1) cs).map fun jc => jc.2 * i ^ jc.1).sum [MOD q] :=
          (Nat.mod_modEq _ q).mul_right _
      _ ≡ (acc * g ^ (c * i ^ k))
          * g ^ ((List.enumFrom (k + 1) cs).map fun jc => jc.2 * i ^ jc.1).sum [MOD q] :=
          (((Nat.mod_modEq _ q).mul_left acc).mul_right _)
      _ = acc * g ^ (c * i ^ k
          + ((List.enumFrom (k + 1) cs).map fun jc => jc.2 * i ^ jc.1).sum) := by
          rw [pow_add]; ring

/-- C2 as frozen is false: with `g = 2`, `q = 5`, `secret = 5`, `threshold =
1`, `num_shares = 1` (a deterministic instance: a degree-0 polynomial has no
random coefficients), the single generated share fails `verify_share` against
the returned commitments. -/
theorem C2_counterexample :
    (FeldmanVSSParams.mk 2 5).generate_shares 5 1 1 (fun _ => 1) = ([(1, 0)], [2]) ∧
    FeldmanVerifiability.verify_share 1 0 [2] (FeldmanVSSParams.mk 2 5) = false := by
  exact ⟨by decide, by decide⟩

/-- C2 (amended): every generated share passes `verify_share` against the
returned commitments, provided the polynomial evaluations at the share
indices and the index powers `i^k` (for `k < threshold`) stay below `q`
(they are then not truncated by the modular reductions). -/
theorem C2_feldman_verify_amended (params : FeldmanVSSParams)
    (secret threshold num_shares : Nat) (rand : Nat → Nat) (ht : 1 ≤ threshold)
    (heval : ∀ i, 1 ≤ i → i ≤ num_shares →
      (VSSS.Polynomial.new_for_shamir (threshold - 1) (Nat.size secret) secret
        rand).evaluate i < params.q)
    (hpow : ∀ i k, 1 ≤ i → i ≤ num_shares → k < threshold → i ^ k < params.q) :
    ∀ p ∈ (params.generate_shares secret threshold num_shares rand).1,
      FeldmanVerifiability.verify_share p.1 p.2
        (params.generate_shares secret threshold num_shares rand).2 params = true := by
  intro p hp
  simp only [FeldmanVSSParams.generate_shares, List.mem_map, List.mem_range] at hp
  obtain ⟨a, ha, rfl⟩ := hp
  set P := VSSS.Polynomial.new_for_shamir (threshold - 1) (Nat.size secret) secret rand with hP
  have hi1 : 1 ≤ a + 1 := by omega
  have hin : a + 1 ≤ num_shares := by omega
  have hlen : P.coefficients.length = threshold := by
    rw [hP, VSSS.Polynomial.new_for_shamir]
    simp
    omega
  have hq2 : 2 ≤ params.q := by
    have := hpow (a + 1) 0 hi1 hin (by omega)
    simpa using this
  have hfold := verify_fold params.q params.g (a + 1) hq2 P.coefficients 0
    (fun j hj => by
      have := hpow (a + 1) j hi1 hin (by omega)
      simpa using this)
    1 (by omega)
  have hev : P.evaluate (a + 1) % params.q = P.evaluate (a + 1) :=
    Nat.mod_eq_of_lt (heval (a + 1) hi1 hin)
  have hsum : ((List.enumFrom 0 P.coefficients).map
      fun jc => jc.2 * (a + 1) ^ jc.1).sum = P.evaluate (a + 1) := by
    rw [enumFrom_map_sum 0 (fun j c => c * (a + 1) ^ j) P.coefficients 0]
    rw [evaluate_eq_sum]
    refine Finset.sum_congr rfl fun j _ => ?_
    simp
  rw [FeldmanVerifiability.verify_share]
  simp only [FeldmanVSSParams.generate_shares, FeldmanVSSParams.generate_commitments]
  rw [beq_iff_eq]
  show mod_exp params.g (P.evaluate (a + 1) % params.q) params.q
      = (P.coefficients.map fun coef => mod_exp params.g coef params.q).enum.foldl
          (fun acc jc => acc * mod_exp jc.2 (mod_exp (a + 1) jc.1 params.q) params.q
            % params.q) 1
  have henum : (P.coefficients.map fun coef => mod_exp params.g coef params.q).enum
      = List.enumFrom 0 (P.coefficients.map fun coef => mod_exp params.g coef params.q) :=
    rfl
  rw [henum, hfold, hsum, hev, mod_exp, one_mul]

/-- Witness for the amended C2 at a concrete instance (g = 2, q = 97,
secret = 3, threshold = 2, num_shares = 2, all draws = 2). -/
theorem C2_witness :
    FeldmanVerifiability.verify_share 1 5
      ((FeldmanVSSParams.mk 2 97).generate_shares 3 2 2 (fun _ => 2)).2
      (FeldmanVSSParams.mk 2 97) = true :=
  C2_feldman_verify_amended (FeldmanVSSParams.mk 2 97) 3 2 2 (fun _ => 2) (by decide)
    (by
      intro i h1 h2
      interval_cases i <;> decide)
    (by
      intro i k h1 h2 h3
      interval_cases i <;> interval_cases k <;> decide)
    (1, 5) (by decide)

/-- C3 as frozen is false: with modulus 1, the points `(1,0)` and `(1,0)`
share an x-coordinate, yet interpolation succeeds with `Some 0` (every value
is invertible mod 1), so "None iff duplicate x or shared factor" fails. -/
theorem C3_counterexample :
    ([((1 : Nat), (0 : Nat)), (1, 0)].getD 0 (0, 0)).1
        = ([((1 : Nat), (0 : Nat)), (1, 0)].getD 1 (0, 0)).1 ∧
    lagrange_interpolation_zero [(1, 0), (1, 0)] 1 = some (some 0) ∧
    lagrange_interpolation_zero [(1, 0), (1, 0)] 1 ≠ some none := by
  refine ⟨rfl, ?_, ?_⟩
  · simp [lagrange_interpolation_zero, lagrangeAux, innerAux, List.enum, List.enumFrom,
      mod_inv_zero_one]
  · simp [lagrange_interpolation_zero, lagrangeAux, innerAux, List.enum, List.enumFrom,
      mod_inv_zero_one]

/-- C3 (amended): for modulus `m ≥ 2` and x-coordinates below `m` (the regime
where `BigUint` subtraction cannot panic), interpolation returns the
function-level `None` exactly when some denominator has no inverse mod `m`;
`mod_inv` fails exactly when the gcd with `m` is not 1; and two points sharing
an x-coordinate force the `None` outcome. -/
theorem C3_lagrange_none_iff (points : List (Nat × Nat)) (m : Nat) (hm : 2 ≤ m)
    (hx : ∀ p ∈ points, p.1 < m) :
    (lagrange_interpolation_zero points m = some none ↔
      ∃ i, i < points.length ∧ VSSS.mod_inv (lagDenVal points m i) m = none) ∧
    (∀ a, VSSS.mod_inv a m = none ↔ Nat.gcd a m ≠ 1) ∧
    ((∃ i j, i < points.length ∧ j < points.length ∧ i ≠ j ∧
        (points.getD i (0, 0)).1 = (points.getD j (0, 0)).1) →
      lagrange_interpolation_zero points m = some none) := by
  have hxle : ∀ p ∈ points, p.1 ≤ m := fun p hp => le_of_lt (hx p hp)
  have hmem_idx : ∀ e ∈ points.enum, e.1 < points.length := by
    intro e he
    have h := List.mem_enum_iff_get?.mp he
    rcases List.get?_eq_some.mp h with ⟨hlt, -⟩
    exact hlt
  have hiff :
      lagrange_interpolation_zero points m = some none ↔
        ∃ i, i < points.length ∧ Nat.gcd (lagDenVal points m i) m ≠ 1 := by
    constructor
    · intro hres
      by_contra hall
      push_neg at hall
      obtain ⟨S, hS, -, -⟩ := lagrangeAux_some points m hm hxle points.enum
        (fun e he => he) (fun e he => hall e.1 (hmem_idx e he)) 0 (by omega)
      rw [lagrange_interpolation_zero, hS] at hres
      exact Option.noConfusion (Option.some.injEq _ _ ▸ hres)
    · rintro ⟨i, hi, hgcd⟩
      have hienum : (i, points.getD i (0, 0)) ∈ points.enum := by
        rw [List.mem_enum_iff_get?]
        show points.get? i = some (points.getD i (0, 0))
        rw [List.getD_eq_get _ _ hi]
        exact List.get?_eq_get hi
      exact lagrangeAux_none points m hm hxle points.enum (fun e he => he)
        ⟨(i, points.getD i (0, 0)), hienum, hgcd⟩ 0
  refine ⟨?_, fun a => mod_inv_eq_none_iff a m, ?_⟩
  · rw [hiff]
    constructor
    · rintro ⟨i, hi, hgcd⟩
      exact ⟨i, hi, (mod_inv_eq_none_iff _ m).mpr hgcd⟩
    · rintro ⟨i, hi, hnone⟩
      exact ⟨i, hi, (mod_inv_eq_none_iff _ m).mp hnone⟩
  · rintro ⟨i, j, hi, hj, hne, hdup⟩
    rw [hiff]
    refine ⟨i, hi, ?_⟩
    have hfac : (points.getD i (0, 0)).1 + m - (points.getD j (0, 0)).1 = m := by
      rw [hdup]
      omega
    have hjmem : j ∈ (Finset.range points.length).erase i :=
      Finset.mem_erase.mpr ⟨fun h => hne h.symm, Finset.mem_range.mpr hj⟩
    have hdvd : m ∣ lagDenProd points m i := by
      have h := Finset.dvd_prod_of_mem
        (fun j => (points.getD i (0, 0)).1 + m - (points.getD j (0, 0)).1) hjmem
      simp only at h
      rw [hfac] at h
      exact h
    have hzero : lagDenVal points m i = 0 := by
      obtain ⟨c, hc⟩ := hdvd
      rw [lagDenVal, hc, Nat.mul_mod_right]
    rw [hzero, Nat.gcd_zero_left]
    omega

/-- Witness for the amended C3: a duplicated x-coordinate with modulus 5
yields the `None` outcome. -/
theorem C3_witness :
    lagrange_interpolation_zero [(1, 2), (1, 3)] 5 = some none :=
  (C3_lagrange_none_iff [(1, 2), (1, 3)] 5 (by decide)
      (by intro p hp; fin_cases hp <;> decide)).2.2
    ⟨0, 1, by decide, by decide, by decide, by decide⟩

/-- Core round-trip fact: interpolation at zero over a prime modulus recovers
the constant coefficient from any family of distinct in-range nodes carrying
the reduced polynomial values. -/
theorem lagrange_roundtrip_core (m : Nat) (hp : Nat.Prime m) (cs : List Nat)
    (hc0 : cs.getD 0 0 < m)
    (sub : List (Nat × Nat)) (hlen : sub.length = cs.length) (hlen0 : 0 < cs.length)
    (hshape : ∀ p ∈ sub, p.1 < m ∧ p.2 = (VSSS.Polynomial.mk cs).evaluate p.1 % m)
    (hdist : sub.Pairwise (fun p q => p.1 ≠ q.1)) :
    lagrange_interpolation_zero sub m = some (some (cs.getD 0 0)) := by
  classical
  haveI : Fact (Nat.Prime m) := ⟨hp⟩
  have hm2 : 2 ≤ m := hp.two_le
  have hget : ∀ j, j < sub.length → sub.getD j (0, 0) ∈ sub := by
    intro j hj
    rw [List.getD_eq_get _ _ hj]
    exact List.get_mem sub j hj
  have hxlt : ∀ j, j < sub.length → (sub.getD j (0, 0)).1 < m :=
    fun j hj => (hshape _ (hget j hj)).1
  have hxle' : ∀ p ∈ sub, p.1 ≤ m := fun p hpm => le_of_lt (hshape p hpm).1
  have hpair := List.pairwise_iff_get.mp hdist
  have hxne : ∀ a b, a < sub.length → b < sub.length → a ≠ b →
      (sub.getD a (0, 0)).1 ≠ (sub.getD b (0, 0)).1 := by
    intro a b ha hb hne
    rw [List.getD_eq_get _ _ ha, List.getD_eq_get _ _ hb]
    rcases Nat.lt_or_ge a b with h | h
    · exact hpair ⟨a, ha⟩ ⟨b, hb⟩ h
    · have hba : b < a := by omega
      exact (hpair ⟨b, hb⟩ ⟨a, ha⟩ hba).symm
  have hinj : Set.InjOn (fun j => (((sub.getD j (0, 0)).1 : Nat) : ZMod m))
      ↑(Finset.range sub.length) := by
    intro a ha b hb hv
    simp only [Finset.coe_range, Set.mem_Iio] at ha hb
    by_contra hne
    apply hxne a b ha hb hne
    have h1 := ZMod.val_cast_of_lt (hxlt a ha)
    have h2 := ZMod.val_cast_of_lt (hxlt b hb)
    simp only at hv
    rw [← h1, ← h2, hv]
  have hdencast : ∀ i, i < sub.length →
      ((lagDenProd sub m i : Nat) : ZMod m)
        = ∏ j ∈ (Finset.range sub.length).erase i,
            ((((sub.getD i (0, 0)).1 : Nat) : ZMod m)
              - (((sub.getD j (0, 0)).1 : Nat) : ZMod m)) := by
    intro i hi
    rw [lagDenProd, Nat.cast_prod]
    refine Finset.prod_congr rfl fun j hj => ?_
    have hjlt : j < sub.length := Finset.mem_range.mp (Finset.mem_of_mem_erase hj)
    have hle2 : (sub.getD j (0, 0)).1 ≤ (sub.getD i (0, 0)).1 + m := by
      have := hxlt j hjlt
      omega
    rw [Nat.cast_sub hle2]
    push_cast
    rw [ZMod.natCast_self]
    ring
  have hnumcast : ∀ i, i < sub.length →
      ((lagNumProd sub m i : Nat) : ZMod m)
        = ∏ j ∈ (Finset.range sub.length).erase i,
            ((0 : ZMod m) - (((sub.getD j (0, 0)).1 : Nat) : ZMod m)) := by
    intro i hi
    rw [lagNumProd, Nat.cast_prod]
    refine Finset.prod_congr rfl fun j hj => ?_
    have hjlt : j < sub.length := Finset.mem_range.mp (Finset.mem_of_mem_erase hj)
    have hle2 : (sub.getD j (0, 0)).1 ≤ m := le_of_lt (hxlt j hjlt)
    rw [Nat.cast_sub hle2, ZMod.natCast_self]
  have hdenne : ∀ i, i < sub.length → ((lagDenProd sub m i : Nat) : ZMod m) ≠ 0 := by
    intro i hi
    rw [hdencast i hi, Finset.prod_ne_zero_iff]
    intro j hj h0
    have hji : j ≠ i := Finset.ne_of_mem_erase hj
    have hjlt : j < sub.length := Finset.mem_range.mp (Finset.mem_of_mem_erase hj)
    rw [sub_eq_zero] at h0
    have h1 := ZMod.val_cast_of_lt (hxlt i hi)
    have h2 := ZMod.val_cast_of_lt (hxlt j hjlt)
    exact hxne i j hi hjlt (Ne.symm hji) (by rw [← h1, ← h2, h0])
  have hgcd : ∀ i, i < sub.length → Nat.gcd (lagDenVal sub m i) m = 1 := by
    intro i hi
    have hnd : ¬ m ∣ lagDenProd sub m i := by
      intro hdvd
      exact hdenne i hi ((ZMod.natCast_zmod_eq_zero_iff_dvd _ _).mpr hdvd)
    have hco := (hp.coprime_iff_not_dvd).mpr hnd
    rw [lagDenVal, ← Nat.gcd_rec]
    exact hco
  have hmem_idx : ∀ e ∈ sub.enum, e.1 < sub.length := by
    intro e he
    rcases List.get?_eq_some.mp (List.mem_enum_iff_get?.mp he) with ⟨hlt, -⟩
    exact hlt
  obtain ⟨S, hS, hSlt, hScast⟩ := lagrangeAux_some sub m hm2 hxle' sub.enum
    (fun e he => he) (fun e he => hgcd e.1 (hmem_idx e he)) 0 (by omega)
  have hsum0 : (sub.enum.map (fun e => ((e.2.2 : ZMod m)
      * ((lagNumVal sub m e.1 : Nat) : ZMod m)
      * ((lagInvVal sub m e.1 : Nat) : ZMod m)))).sum
      = ∑ j ∈ Finset.range sub.length,
          (((sub.getD j (0, 0)).2 : ZMod m)
            * ((lagNumVal sub m j : Nat) : ZMod m)
            * ((lagInvVal sub m j : Nat) : ZMod m)) := by
    have h := enumFrom_map_sum (M := ZMod m) ((0 : Nat), (0 : Nat))
      (fun j pq => ((pq.2 : ZMod m)
        * ((lagNumVal sub m j : Nat) : ZMod m)
        * ((lagInvVal sub m j : Nat) : ZMod m))) sub 0
    simpa using h
  have hterm : ∀ j ∈ Finset.range sub.length,
      (((sub.getD j (0, 0)).2 : ZMod m)
        * ((lagNumVal sub m j : Nat) : ZMod m)
        * ((lagInvVal sub m j : Nat) : ZMod m))
      = (((sub.getD j (0, 0)).2 : Nat) : ZMod m)
        * (∏ j' ∈ (Finset.range sub.length).erase j,
            ((0 : ZMod m) - (((sub.getD j' (0, 0)).1 : Nat) : ZMod m)))
        * (∏ j' ∈ (Finset.range sub.length).erase j,
            ((((sub.getD j (0, 0)).1 : Nat) : ZMod m)
              - (((sub.getD j' (0, 0)).1 : Nat) : ZMod m)))⁻¹ := by
    intro j hjmem
    have hj : j < sub.length := Finset.mem_range.mp hjmem
    obtain ⟨w, hw, -, hwinv⟩ := mod_inv_eq_some (lagDenVal sub m j) m (by omega) (hgcd j hj)
    have hwval : lagInvVal sub m j = w := by
      rw [lagInvVal, hw]
      rfl
    have hcast1 : ((lagDenVal sub m j : Nat) : ZMod m) * (w : ZMod m) = 1 := by
      have h1 : ((lagDenVal sub m j * w : Nat) : ZMod m) = ((1 : Nat) : ZMod m) :=
        (ZMod.natCast_eq_natCast_iff _ _ _).mpr hwinv
      push_cast at h1
      exact h1
    have hdv : ((lagDenVal sub m j : Nat) : ZMod m)
        = ∏ j' ∈ (Finset.range sub.length).erase j,
            ((((sub.getD j (0, 0)).1 : Nat) : ZMod m)
              - (((sub.getD j' (0, 0)).1 : Nat) : ZMod m)) := by
      rw [lagDenVal, ZMod.natCast_mod, hdencast j hj]
    have hwinv2 : (w : ZMod m)
        = (∏ j' ∈ (Finset.range sub.length).erase j,
            ((((sub.getD j (0, 0)).1 : Nat) : ZMod m)
              - (((sub.getD j' (0, 0)).1 : Nat) : ZMod m)))⁻¹ := by
      rw [← hdv]
      exact (inv_eq_of_mul_eq_one_right hcast1).symm
    rw [hwval, hwinv2]
    congr 2
    rw [lagNumVal, ZMod.natCast_mod, hnumcast j hj]
  have hval_r : ∀ j, j < sub.length →
      (((sub.getD j (0, 0)).2 : Nat) : ZMod m)
        = Polynomial.eval (((sub.getD j (0, 0)).1 : Nat) : ZMod m)
            (∑ i : Fin cs.length,
              Polynomial.C ((cs.getD (i : ℕ) 0 : Nat) : ZMod m)
                * Polynomial.X ^ (i : ℕ)) := by
    intro j hj
    have hy := (hshape _ (hget j hj)).2
    rw [hy, ZMod.natCast_mod, evaluate_eq_sum, eval_cast_poly]
    push_cast
    rfl
  have hdeg := Polynomial.degree_sum_fin_lt
    (fun i : Fin cs.length => ((cs.getD (i : ℕ) 0 : Nat) : ZMod m))
  have hdeg2 : (∑ i : Fin cs.length,
      Polynomial.C ((cs.getD (i : ℕ) 0 : Nat) : ZMod m)
        * Polynomial.X ^ (i : ℕ)).degree < ((sub.length : ℕ) : WithBot ℕ) :=
    lt_of_lt_of_le hdeg
      (le_of_eq (congrArg (fun n : ℕ => ((n : ℕ) : WithBot ℕ)) hlen.symm))
  have happ := lagrange_sum_eq_eval_zero sub.length
    (fun j => (((sub.getD j (0, 0)).1 : Nat) : ZMod m))
    (fun j => (((sub.getD j (0, 0)).2 : Nat) : ZMod m))
    hinj
    (∑ i : Fin cs.length,
      Polynomial.C ((cs.getD (i : ℕ) 0 : Nat) : ZMod m) * Polynomial.X ^ (i : ℕ))
    hdeg2
    (fun j hj => hval_r j hj)
  have hfinal : (S : ZMod m) = ((cs.getD 0 0 : Nat) : ZMod m) := by
    rw [hScast, Nat.cast_zero, zero_add, hsum0, Finset.sum_congr rfl hterm, happ,
      eval_cast_poly_zero cs hlen0]
  have hSsec : S = cs.getD 0 0 := by
    have h1 := ZMod.val_cast_of_lt hSlt
    have h2 := ZMod.val_cast_of_lt hc0
    rw [← h1, ← h2, hfinal]
  rw [lagrange_interpolation_zero, hS, hSsec]

/-- C1 as frozen is false: with secret 1, threshold 2, num_shares 3, modulus 2
(a prime larger than the secret, with threshold ≤ num_shares) and all random
draws equal to 1, the subset {(1,0),(3,0)} of the generated shares has
distinct indices and size = threshold, yet reconstruction panics on a
`BigUint` underflow (share index 3 exceeds the modulus 2) instead of
returning `Some 1`. -/
theorem C1_counterexample :
    ShamirsSecretSharing.generate_shares 1 2 3 2 (fun _ => 1) = [(1, 0), (2, 1), (3, 0)] ∧
    Nat.Prime 2 ∧ (1 : Nat) < 2 ∧ (2 : Nat) ≤ 3 ∧
    ShamirsSecretSharing.reconstruct_secret [(1, 0), (3, 0)] 2 = none ∧
    ShamirsSecretSharing.reconstruct_secret [(1, 0), (3, 0)] 2 ≠ some (some 1) := by
  refine ⟨by decide, by norm_num, by decide, by decide, by decide, by decide⟩

/-- C1 (amended): with a prime modulus larger than both the secret and
`num_shares` (so that all share indices stay in range), reconstructing from
any `threshold`-sized subset of the generated shares with distinct indices
returns exactly `Some(secret)`, for every outcome of the random draws. -/
theorem C1_shamir_roundtrip (secret threshold num_shares modulus : Nat) (rand : Nat → Nat)
    (hp : Nat.Prime modulus) (hsec : secret < modulus) (ht : 1 ≤ threshold)
    (htn : threshold ≤ num_shares) (hnm : num_shares < modulus)
    (sub : List (Nat × Nat)) (hlen : sub.length = threshold)
    (hsub : ∀ p ∈ sub,
      p ∈ ShamirsSecretSharing.generate_shares secret threshold num_shares modulus rand)
    (hdist : sub.Pairwise (fun p q => p.1 ≠ q.1)) :
    ShamirsSecretSharing.reconstruct_secret sub modulus = some (some secret) := by
  have hcs : (VSSS.Polynomial.new_for_shamir (threshold - 1) (Nat.size secret) secret
      rand).coefficients = secret :: (List.range (threshold - 1)).map rand := rfl
  have hclen : (secret :: (List.range (threshold - 1)).map rand).length = threshold := by
    simp only [List.length_cons, List.length_map, List.length_range]
    omega
  have hc0 : (secret :: (List.range (threshold - 1)).map rand).getD 0 0 = secret :=
    List.getD_cons_zero
  have hshape : ∀ p ∈ sub, p.1 < modulus ∧
      p.2 = (VSSS.Polynomial.mk (secret :: (List.range (threshold - 1)).map rand)).evaluate
        p.1 % modulus := by
    intro p hpmem
    have h := hsub p hpmem
    simp only [ShamirsSecretSharing.generate_shares, List.mem_map, List.mem_range] at h
    obtain ⟨k, hk, rfl⟩ := h
    exact ⟨by omega, rfl⟩
  have hcore := lagrange_roundtrip_core modulus hp
    (secret :: (List.range (threshold - 1)).map rand)
    (by rw [hc0]; exact hsec)
    sub (by rw [hclen]; exact hlen) (by rw [hclen]; omega)
    hshape hdist
  rw [hc0] at hcore
  exact hcore

/-- Witness for the amended C1 at a concrete instance: secret 2, threshold 2,
num_shares 3, modulus 5, all draws 1; the subset {(1,3),(3,0)} reconstructs
the secret. -/
theorem C1_witness :
    ShamirsSecretSharing.reconstruct_secret [(1, 3), (3, 0)] 5 = some (some 2) :=
  C1_shamir_roundtrip 2 2 3 5 (fun _ => 1) (by norm_num) (by decide) (by decide) (by decide)
    (by decide) [(1, 3), (3, 0)] (by decide)
    (by
      intro p hp
      fin_cases hp <;> decide)
    (by decide)

end Claims
